import Mathlib

/-!
Verification development for the message-archival bot in `src/bot.js`.

Message text is modelled as `List Char`.  The two regular expressions of the
classifier are embedded as deterministic scanners whose behaviour is derived,
step by step, from the backtracking semantics of the JavaScript regex engine;
the derivation is recorded in the comments next to each definition.  The
stateful parts of the pipeline (database writes, the history crawler, the live
event handlers) are embedded as pure functions that return the list of row
insertions they perform, in order.
-/

/-! ## Code-block extraction (src/bot.js lines 111-121)

The source scans a string with the global regex

    /```(([a-z]+)\n)?\n*([\s\S]*?)\n*```/g

pushing `{lang: match[2], code: match[3]}` for every match.  Backtracking
semantics of one match attempt, starting at a given position:

* the literal "```" must match;
* the greedy optional group `([a-z]+)\n` matches exactly when the next
  characters are a nonempty run of lowercase letters followed by a newline
  (the greedy `[a-z]+` can only stop at the full run, since every shorter stop
  is followed by another letter, not `\n`);  if the group matches, undoing it
  never helps: the skipped characters contain no backtick, so the tail can
  succeed without the group only where it also succeeds with it;
* the greedy `\n*` consumes the maximal newline run (shrinking it never
  exposes a new closing "```", since the uncovered characters are newlines);
* the lazy `([\s\S]*?)\n*```` stops at the first occurrence of "```" at or
  after the current position, with the greedy trailing `\n*` absorbing the
  newline run immediately before that occurrence (not reaching back before
  the current position);
* hence a match attempt fails only when no "```" occurs after the opening
  part; in that case no later starting position can succeed either: a later
  successful start would itself need a closing "```" further right, which
  would also have closed the failed attempt;
* on success, the global exec continues right after the closing "```".
-/

/-- The backtick character (code 96). -/
def tick : Char := Char.ofNat 96

/-- The three-backtick fence marker. -/
def ticksL : List Char := [tick, tick, tick]

/-- Suffix following the first occurrence of "```", if any. -/
def afterTicks : List Char → Option (List Char)
  | [] => none
  | c :: s => if c = tick ∧ s.take 2 = [tick, tick] then some (s.drop 2) else afterTicks s

/-- Split at the first occurrence of "```": the part before it and the part
after it.  `none` when no "```" occurs. -/
def splitAtTicks : List Char → Option (List Char × List Char)
  | [] => none
  | c :: s =>
    if c = tick ∧ s.take 2 = [tick, tick] then some ([], s.drop 2)
    else
      match splitAtTicks s with
      | some (b, r) => some (c :: b, r)
      | none => none

/-- The newline predicate used by the `\n*` parts of the regex. -/
def nlP (c : Char) : Bool := c == '\n'

/-- Remove the trailing newline run (the greedy `\n*` before the closing
fence). -/
def dropTrailingNL (l : List Char) : List Char := ((l.reverse).dropWhile nlP).reverse

/-- One extracted code block: `lang` is capture group 2 (absent when the
optional language-tag group did not participate), `code` is capture group 3. -/
structure CodeBlock where
  lang : Option (List Char)
  code : List Char
deriving DecidableEq

/-- One match attempt on the text `x` that follows an opening "```", per the
semantics derived above.  Returns the extracted block and the suffix after the
closing "```". -/
def fenceAttempt (x : List Char) : Option (CodeBlock × List Char) :=
  if x.takeWhile Char.isLower ≠ [] ∧
      (x.drop (x.takeWhile Char.isLower).length).head? = some '\n' then
    match splitAtTicks ((x.drop ((x.takeWhile Char.isLower).length + 1)).dropWhile nlP) with
    | some (b, r) => some (⟨some (x.takeWhile Char.isLower), dropTrailingNL b⟩, r)
    | none => none
  else
    match splitAtTicks (x.dropWhile nlP) with
    | some (b, r) => some (⟨none, dropTrailingNL b⟩, r)
    | none => none

/-- The global exec loop.  The fuel only bounds the number of matches; each
match consumes at least six characters, so `s.length + 1` is always enough. -/
def getCodeBlocksF : Nat → List Char → List CodeBlock
  | 0, _ => []
  | f + 1, s =>
    match afterTicks s with
    | none => []
    | some s1 =>
      match fenceAttempt s1 with
      | none => []
      | some (blk, rest) => blk :: getCodeBlocksF f rest

/-- src/bot.js `getCodeBlocks`: all code blocks contained in a string. -/
def getCodeBlocks (s : List Char) : List CodeBlock := getCodeBlocksF (s.length + 1) s

/-! ## Link extraction (src/bot.js lines 124-136)

`matchUrlWithDomain(string, domain)` matches the global regex built from the
string

    "(https?:\/\/(.+?\.)?" + domain + "(\/[A-Za-z0-9\-\._~:\/\?#\[\]@!$&'()*+,;=]*)?)"

and returns all whole-match strings (`string.match(regex) || []`).  The
configured domain is spliced in unescaped, so a `.` inside it is the regex
wildcard (any character except a line terminator); hostnames contain no other
regex metacharacter, so every other domain character is literal.  Backtracking
semantics of one attempt at a given position:

* "http" literally, then the greedy optional `s`: if the next character is
  `s` then "://" must follow it (falling back to no `s` cannot succeed, since
  the next character is then `s`, not `:`); otherwise "://" must follow
  directly;
* the greedy optional subdomain group `(.+?\.)?` with its lazy `.+?` tries
  bodies of increasing length k = 1, 2, ...; an attempt at k requires k
  non-line-terminator characters, then a literal '.', then the domain
  pattern; the first k whose literal '.' and domain pattern both match wins
  (what follows the domain is an optional group with nothing after it, so it
  never fails and never forces further backtracking); when no k works the
  group is skipped and the domain pattern must match directly;
* the greedy optional path group `(\/[...]*)?` consumes a '/' and then the
  maximal run of path-class characters, or nothing when no '/' follows;
* a failed attempt makes the engine retry from the next position; since every
  match starts with the literal `h` of "http", positions whose character is
  not `h` fail immediately;  on success the global exec continues after the
  matched text (matches never have length zero).
-/

/-- Character class excluded by the JavaScript regex wildcard `.`
(line terminators: LF, CR, LINE SEPARATOR, PARAGRAPH SEPARATOR). -/
def notLineTerm (c : Char) : Bool :=
  !(c == '\n' || c == '\r' || c == Char.ofNat 8232 || c == Char.ofNat 8233)

/-- The path character class `[A-Za-z0-9\-\._~:\/\?#\[\]@!$&'()*+,;=]`. -/
def isPathChar (c : Char) : Bool :=
  c.isAlpha || c.isDigit || c == '-' || c == '.' || c == '_' || c == '~' ||
  c == ':' || c == '/' || c == '?' || c == '#' || c == '[' || c == ']' ||
  c == '@' || c == '!' || c == '$' || c == '&' || c == Char.ofNat 39 ||
  c == '(' || c == ')' || c == '*' || c == '+' || c == ',' || c == ';' || c == '='

/-- Strip an exact literal prefix, returning the rest. -/
def dropPre : List Char → List Char → Option (List Char)
  | [], s => some s
  | _ :: _, [] => none
  | p :: ps, c :: s => if p = c then dropPre ps s else none

/-- The literal "http". -/
def httpL : List Char := ['h', 't', 't', 'p']

/-- The literal "://". -/
def schemeSepL : List Char := [':', '/', '/']

/-- The scheme text of a match: "https://" when the optional `s` matched,
"http://" otherwise. -/
def schemeL (secure : Bool) : List Char :=
  if secure then httpL ++ 's' :: schemeSepL else httpL ++ schemeSepL

/-- Match the spliced domain pattern against a prefix of `s`: each domain
character is literal except '.', which matches any non-line-terminator.
Returns the consumed text and the rest. -/
def matchDomainSplit : List Char → List Char → Option (List Char × List Char)
  | [], s => some ([], s)
  | _ :: _, [] => none
  | d :: ds, c :: s =>
    if (if d = '.' then notLineTerm c else d == c) then
      match matchDomainSplit ds s with
      | some (dc, r) => some (c :: dc, r)
      | none => none
    else none

/-- The lazy subdomain search `(.+?\.)` followed by the domain pattern:
smallest body first.  Returns (consumed subdomain text including its final
'.', consumed domain text, rest). -/
def subSearch (domain : List Char) : List Char → Option (List Char × List Char × List Char)
  | [] => none
  | [_] => none
  | c :: d :: s2 =>
    if notLineTerm c then
      if d = '.' then
        match matchDomainSplit domain s2 with
        | some (dc, rest) => some ([c, '.'], dc, rest)
        | none =>
          match subSearch domain (d :: s2) with
          | some (g, dc, rest) => some (c :: g, dc, rest)
          | none => none
      else
        match subSearch domain (d :: s2) with
        | some (g, dc, rest) => some (c :: g, dc, rest)
        | none => none
    else none

/-- The greedy optional path group `(\/[...]*)?`: consumed text and rest. -/
def takePath : List Char → List Char × List Char
  | [] => ([], [])
  | c :: s =>
    if c = '/' then ('/' :: s.takeWhile isPathChar, s.dropWhile isPathChar)
    else ([], c :: s)

/-- After the scheme: optional subdomain, domain pattern, optional path.
`pre` is the text already consumed by the scheme. -/
def afterScheme (domain pre s : List Char) : Option (List Char × List Char) :=
  match subSearch domain s with
  | some (g, dc, rest) => some (pre ++ g ++ dc ++ (takePath rest).1, (takePath rest).2)
  | none =>
    match matchDomainSplit domain s with
    | some (dc, rest) => some (pre ++ dc ++ (takePath rest).1, (takePath rest).2)
    | none => none

/-- One match attempt at the start of `s`: the matched text and the rest. -/
def tryUrlAt (domain s : List Char) : Option (List Char × List Char) :=
  match dropPre httpL s with
  | none => none
  | some s1 =>
    match s1 with
    | [] => none
    | c :: s2 =>
      if c = 's' then
        match dropPre schemeSepL s2 with
        | none => none
        | some s3 => afterScheme domain (httpL ++ 's' :: schemeSepL) s3
      else
        match dropPre schemeSepL s1 with
        | none => none
        | some s3 => afterScheme domain (httpL ++ schemeSepL) s3

/-- The global match loop: try each position left to right, continuing after
every successful match.  Skipping a position costs one fuel and a match
consumes at least seven characters, so `s.length + 1` fuel is always enough. -/
def matchUrlF (domain : List Char) : Nat → List Char → List (List Char)
  | 0, _ => []
  | _ + 1, [] => []
  | f + 1, c :: rest =>
    match tryUrlAt domain (c :: rest) with
    | some (m, after) => m :: matchUrlF domain f after
    | none => matchUrlF domain f rest

/-- src/bot.js `matchUrlWithDomain(string, domain)`. -/
def matchUrlWithDomain (s domain : List Char) : List (List Char) :=
  matchUrlF domain (s.length + 1) s

/-- src/bot.js `getLinks`: concatenation of the per-domain matches over the
configured allow-list (`[].concat.apply([], config.domains.map(...))`). -/
def getLinks (domains : List (List Char)) (s : List Char) : List (List Char) :=
  (domains.map (fun d => matchUrlWithDomain s d)).flatten

/-- src/bot.js `containsCode` (returns a count in JS, truthy iff nonzero). -/
def containsCode (s : List Char) : Bool := !(getCodeBlocks s).isEmpty

/-- src/bot.js `containsUrl` (returns a count in JS, truthy iff nonzero). -/
def containsUrl (domains : List (List Char)) (s : List Char) : Bool :=
  !(getLinks domains s).isEmpty

/-- The relevance predicate of the spec: the exact condition of the `if` in
`processMessage` (src/bot.js line 206). -/
def isRelevant (domains : List (List Char)) (s : List Char) : Bool :=
  containsCode s || containsUrl domains s

/-! ## Data model: messages, channels, database rows -/

/-- The channel kinds distinguished by `getChannelName` (src/bot.js 68-77). -/
inductive ChannelType
  | dm
  | group
  | text
  | other
deriving DecidableEq

/-- A channel as seen by the bot: its `type` string, its name and (for DMs)
the recipient's tag. -/
structure Chan where
  ctype : ChannelType
  name : List Char
  recipientTag : List Char
deriving DecidableEq

/-- src/bot.js `getChannelName`; the JS function returns `undefined` for any
other channel type, modelled as `none`. -/
def getChannelName (c : Chan) : Option (List Char) :=
  match c.ctype with
  | ChannelType.dm => some c.recipientTag
  | ChannelType.group => some c.name
  | ChannelType.text => some ('#' :: c.name)
  | ChannelType.other => none

/-- One version of a message: the fields of a discord.js message that the
pipeline reads.  Snowflake ids are opaque; they are modelled as `Nat`.
`editedTimestamp` is `null` (here `none`) when the version was never edited. -/
structure MsgSnap where
  id : Nat
  content : List Char
  createdTimestamp : Nat
  editedTimestamp : Option Nat
  channel : Chan
  authorTag : List Char
deriving DecidableEq

/-- A fetched message together with its cached edit history (`message.edits`):
every version of the message including the current one, newest first, as
documented by discord.js.  In JS the message and its newest version are the
same object. -/
structure Msg extends MsgSnap where
  edits : List MsgSnap
deriving DecidableEq

/-- src/bot.js `getLatestTimestamp`: `message.editedTimestamp ||
message.createdTimestamp`.  JavaScript `||` takes the right operand when the
left is falsy, i.e. when it is `null` or the number `0`. -/
def getLatestTimestamp (m : MsgSnap) : Nat :=
  match m.editedTimestamp with
  | some t => if t = 0 then m.createdTimestamp else t
  | none => m.createdTimestamp

/-- A value bound to a `?` placeholder of an INSERT. -/
inductive DBValue
  | vstr (s : List Char)
  | vnum (n : Nat)
  | vnull
deriving DecidableEq

/-- One `insertRow(table, values)` call (src/bot.js 44-51): the only write
the pipeline ever issues. -/
structure RowInsert where
  table : List Char
  values : List DBValue
deriving DecidableEq

/-- The "Message" identity table. -/
def msgTable : List Char := "Message".toList

/-- The "Content" revision table. -/
def contentTable : List Char := "Content".toList

/-- src/bot.js `insertRow`, as the row it appends. -/
def insertRow (table : List Char) (values : List DBValue) : RowInsert := ⟨table, values⟩

/-- A channel label, as stored (JS `undefined` becomes NULL in the row). -/
def optVal : Option (List Char) → DBValue
  | some s => DBValue.vstr s
  | none => DBValue.vnull

/-- src/bot.js `createEntry`: the identity row for a message. -/
def createEntry (m : MsgSnap) : RowInsert :=
  insertRow msgTable [DBValue.vnum m.id, optVal (getChannelName m.channel), DBValue.vstr m.authorTag]

/-- src/bot.js `storeRevision`: the content row for one observed revision. -/
def storeRevision (m : MsgSnap) : RowInsert :=
  insertRow contentTable [DBValue.vstr m.content, DBValue.vnum (getLatestTimestamp m), DBValue.vnum m.id]

/-- src/bot.js `processMessage(message, edit)`: the row insertions it
performs, in order.  A second argument left out in JS is `undefined`, which is
falsy, hence `edit = false` for the creation paths. -/
def processMessage (domains : List (List Char)) (m : MsgSnap) (edit : Bool) : List RowInsert :=
  if containsCode m.content || containsUrl domains m.content then
    (if edit then [] else [createEntry m]) ++ [storeRevision m]
  else []

/-- src/bot.js `processMessageEdits`: reverse the edit history so the
original is first, process the original as a creation and every later version
as an edit.  (In discord.js `edits` is never empty — it contains the current
version — so the `[]` case is unreachable; in JS it would throw.) -/
def processMessageEdits (domains : List (List Char)) (m : Msg) : List RowInsert :=
  match m.edits.reverse with
  | [] => []
  | orig :: rest =>
    processMessage domains orig false ++
      (rest.map (fun v => processMessage domains v true)).flatten

/-! ## History crawler (src/bot.js 150-191)

The gateway collaborator is modelled through the interface the crawler needs:
a channel is its full message history, newest first, and
`fetchMessages({limit, before})` returns up to `limit` messages strictly older
than the message with id `before` (all ids are platform-unique).  A fetch call
may instead reject; `failOn i` says whether the i-th call for this channel
rejects, modelling an arbitrary network failure schedule. -/

/-- The `limit` constant of `scanChannel` (the spec's PAGE_SIZE). -/
def pageLimit : Nat := 100

/-- A text channel as the crawler sees it. -/
structure ChannelModel where
  msgs : List Msg
  failOn : Nat → Bool

/-- One `channel.fetchMessages({limit, before})` page. -/
def fetchPage (msgs : List Msg) (before : Option Nat) : List Msg :=
  match before with
  | none => msgs.take pageLimit
  | some b => ((msgs.dropWhile (fun m => m.id != b)).drop 1).take pageLimit

/-- What one channel scan produced: the sizes of the successfully fetched
pages in order, the row insertions, whether the channel reached the
exhausted branch (which decrements `channelsRemaining`), and whether a fetch
rejected (`.catch(console.error)`: the crawl of this channel just stops). -/
structure ScanOut where
  pages : List Nat
  ops : List RowInsert
  exhausted : Bool
  errored : Bool
deriving DecidableEq

/-- The recursive `fetch(before)` of `scanChannel`.  `i` counts the fetch
calls made for this channel.  The fuel only bounds the recursion depth; the
entry point passes more fuel than any terminating run needs. -/
def scanChannelAux (domains : List (List Char)) (ch : ChannelModel) :
    Nat → Nat → Option Nat → ScanOut
  | 0, _, _ => ⟨[], [], false, false⟩
  | f + 1, i, before =>
    if ch.failOn i then ⟨[], [], false, true⟩
    else
      let page := fetchPage ch.msgs before
      let ops := (page.map (fun m => processMessageEdits domains m)).flatten
      if page.length = pageLimit then
        let r := scanChannelAux domains ch f (i + 1) ((page.getLast?).map (fun m => m.id))
        ⟨page.length :: r.pages, ops ++ r.ops, r.exhausted, r.errored⟩
      else
        ⟨[page.length], ops, true, false⟩

/-- src/bot.js `scanChannel`: start fetching with no cursor. -/
def scanChannel (domains : List (List Char)) (ch : ChannelModel) : ScanOut :=
  scanChannelAux domains ch (ch.msgs.length + 1) 0 none

/-- src/bot.js `scanHistory` over the already-filtered list of text channels:
the final value of the shared `channelsRemaining` counter (initialized to the
channel count, decremented once per exhausted channel) and whether the
completion signal (`quit`/"Scanning complete", fired when the counter reaches
zero) ever happens. -/
def scanHistory (domains : List (List Char)) (channels : List ChannelModel) : Nat × Bool :=
  let results := channels.map (fun ch => scanChannel domains ch)
  let remaining := channels.length - (results.filter (fun r => r.exhausted)).length
  (remaining, decide (channels.length ≠ 0 ∧ remaining = 0))

/-! ## Live event handlers and the database (src/bot.js 222-234, 42-51) -/

/-- The configuration options the core reads. -/
structure BotConfig where
  domains : List (List Char)
  parse : Bool
  oneshot : Bool

/-- The `client.on("message")` handler: suppressed in parse+oneshot mode,
otherwise a plain creation-path `processMessage(message)`. -/
def onMessage (cfg : BotConfig) (m : MsgSnap) : List RowInsert :=
  if cfg.parse && cfg.oneshot then [] else processMessage cfg.domains m false

/-- The `client.on("messageUpdate")` handler: suppressed in parse+oneshot
mode, otherwise `processMessage(newMessage, true)` on the post-edit snapshot. -/
def onMessageUpdate (cfg : BotConfig) (_oldM newM : MsgSnap) : List RowInsert :=
  if cfg.parse && cfg.oneshot then [] else processMessage cfg.domains newM true

/-- Applying one insert to the database state: SQL INSERT appends a row. -/
def applyInsert (db : List RowInsert) (r : RowInsert) : List RowInsert := db ++ [r]

/-- Applying a sequence of inserts in order. -/
def applyOps (db : List RowInsert) (ops : List RowInsert) : List RowInsert :=
  ops.foldl applyInsert db

/-- The spec's notion for C5: the fence body with the surrounding blank
lines (leading and trailing newline runs) trimmed. -/
def trimNewlines (b : List Char) : List Char := dropTrailingNL (b.dropWhile nlP)

/-! ## Concrete sample data used by counterexamples and witnesses -/

/-- An allow-listed domain, as in the intended configuration. -/
def pastebinL : List Char := "pastebin.com".toList

/-- A host that merely ends in the characters of `pastebinL`. -/
def evilHostL : List Char := "evilpastebin.com".toList

/-- A text whose only URL sits on that host. -/
def evilTextL : List Char := "http://evilpastebin.com".toList

/-- Plain text with neither a code fence nor a link. -/
def plainTextL : List Char := "just some plain words".toList

/-- Text containing a fenced code block. -/
def codeTextL : List Char := "```c\nx=1;\n```".toList

/-- A guild text channel. -/
def sampleChan : Chan := ⟨ChannelType.text, "general".toList, []⟩

/-- C1 counterexample versions: original with code, both edits plain. -/
def c1v0 : MsgSnap := ⟨41, codeTextL, 10, none, sampleChan, "alice#0001".toList⟩

/-- First edit of the C1 counterexample message (irrelevant). -/
def c1v1 : MsgSnap := ⟨41, "hi".toList, 10, some 20, sampleChan, "alice#0001".toList⟩

/-- Second edit of the C1 counterexample message (irrelevant). -/
def c1v2 : MsgSnap := ⟨41, "hi again".toList, 10, some 30, sampleChan, "alice#0001".toList⟩

/-- The C1 counterexample message: three versions, newest first. -/
def c1msg : Msg := ⟨c1v2, [c1v2, c1v1, c1v0]⟩

/-- C1 witness versions: all three relevant. -/
def c1w0 : MsgSnap := ⟨91, codeTextL, 1, none, sampleChan, "w".toList⟩

/-- C1 witness, first edit (relevant via a fence). -/
def c1w1 : MsgSnap := ⟨91, "```js\na\n```".toList, 1, some 2, sampleChan, "w".toList⟩

/-- C1 witness, second edit (relevant via a link). -/
def c1w2 : MsgSnap := ⟨91, "go http://pastebin.com/x".toList, 1, some 3, sampleChan, "w".toList⟩

/-- The C1 witness message. -/
def c1wmsg : Msg := ⟨c1w2, [c1w2, c1w1, c1w0]⟩

/-- C6 witness: original irrelevant ... -/
def c6v0 : MsgSnap := ⟨55, plainTextL, 5, none, sampleChan, "bob#2".toList⟩

/-- ... edited into relevance. -/
def c6v1 : MsgSnap := ⟨55, codeTextL, 5, some 9, sampleChan, "bob#2".toList⟩

/-- The C6 witness message: two versions, newest first. -/
def c6msg : Msg := ⟨c6v1, [c6v1, c6v0]⟩

/-- C8 counterexample: a message edited at timestamp 0. -/
def c8m : MsgSnap := ⟨7, "x".toList, 5, some 0, sampleChan, "a".toList⟩

/-- C8 witness: a message edited at a nonzero timestamp. -/
def c8w : MsgSnap := ⟨8, [], 4, some 9, sampleChan, "a".toList⟩

/-- C9 witness: created relevant ... -/
def c9v0 : MsgSnap := ⟨70, codeTextL, 3, none, sampleChan, "c".toList⟩

/-- ... then edited to become irrelevant. -/
def c9v1 : MsgSnap := ⟨70, plainTextL, 3, some 8, sampleChan, "c".toList⟩

/-- C3 witness: the i-th message of a channel with 100 one-version messages. -/
def c3snap (i : Nat) : MsgSnap := ⟨i, [], 0, none, sampleChan, []⟩

/-- C3 witness: the corresponding fetched message. -/
def c3msg (i : Nat) : Msg := ⟨c3snap i, [c3snap i]⟩

/-- C3 witness: the 99 newest messages. -/
def c3init : List Msg := (List.range 99).map c3msg

/-- C3 witness: the oldest message. -/
def c3last : Msg := c3msg 99

/-- C3 witness: a channel with exactly `pageLimit` messages and no fetch
failures. -/
def c3chan : ChannelModel := ⟨c3init ++ [c3last], fun _ => false⟩

/-- C7 witness: a channel whose very first fetch rejects. -/
def c7chan : ChannelModel := ⟨[], fun _ => true⟩

/-- C5 witness: backtick-free text before the fence. -/
def c5pre : List Char := "see ".toList

/-- C5 witness: the language tag. -/
def c5lang : List Char := "js".toList

/-- C5 witness: the fence body, with surrounding blank lines. -/
def c5body : List Char := "\nconsole.log(1)\n".toList

/-- C5 witness: backtick-free text after the fence. -/
def c5post : List Char := " ok".toList

/-- C10 sample: fence with a recognized lowercase language tag. -/
def c10tagged : List Char := "```py\nz\n```".toList

/-- C10 sample: fence whose tag has uppercase letters. -/
def c10upper : List Char := "```JS\nx\n```".toList

/-- C10 sample: fence whose tag has a digit. -/
def c10digit : List Char := "```x9\ny\n```".toList

/-- C10 sample: fence whose tag starts with a space. -/
def c10space : List Char := "``` py\nz\n```".toList

/-- C10 sample: six consecutive backticks (empty fence). -/
def c10empty : List Char := "``````".toList

/-- C2 witness: surrounding text without the letter h. -/
def preNoH : List Char := "see: ".toList

/-- C2 witness: text after the URL, not starting with a slash. -/
def postW : List Char := " ok".toList

/-- C2 witness: a subdomain. -/
def wwwL : List Char := "www".toList

/-- C2 witness: a multi-label subdomain. -/
def abL : List Char := "a.b".toList

/-! ## Claim C4 -/

/-- C4: the relevance predicate gating both ingestion paths is exactly
`containsCode OR containsUrl`: `processMessage` persists something (in either
mode) iff the text is relevant, `isRelevant` is that disjunction, and it is
false on plain text with neither feature. -/
theorem c4_relevance_gate :
    (∀ (domains : List (List Char)) (m : MsgSnap) (edit : Bool),
      processMessage domains m edit ≠ [] ↔ isRelevant domains m.content = true) ∧
    (∀ (domains : List (List Char)) (s : List Char),
      isRelevant domains s = (containsCode s || containsUrl domains s)) ∧
    isRelevant [pastebinL] plainTextL = false := by
  refine ⟨?_, fun _ _ => rfl, by decide⟩
  intro domains m edit
  unfold processMessage isRelevant
  cases h : containsCode m.content || containsUrl domains m.content
  · simp [h]
  · cases edit <;> simp [h]

/-! ## Claim C1 -/

/-- C1 counterexample: a message with three historical versions whose
original is relevant but whose edits are not receives only one revision
append, not three — the per-version relevance gate also applies to edits. -/
theorem c1_counterexample :
    c1msg.edits.length = 3 ∧
    isRelevant [] c1v0.content = true ∧
    ((processMessageEdits [] c1msg).filter (fun r => r.table == contentTable)).length = 1 ∧
    ((processMessageEdits [] c1msg).filter (fun r => r.table == contentTable)).length ≠ 3 := by
  refine ⟨rfl, by decide, by decide, by decide⟩

/-- C1 (amended): for a message with three historical versions each of which
is relevant, processing appends exactly three revisions in chronological
order (original first) and creates exactly one identity row, for the
original, before its revision. -/
theorem c1_ordered_revisions (domains : List (List Char)) (m : Msg) (v0 v1 v2 : MsgSnap)
    (he : m.edits = [v2, v1, v0])
    (h0 : isRelevant domains v0.content = true)
    (h1 : isRelevant domains v1.content = true)
    (h2 : isRelevant domains v2.content = true) :
    processMessageEdits domains m =
      [createEntry v0, storeRevision v0, storeRevision v1, storeRevision v2] ∧
    ((processMessageEdits domains m).filter (fun r => r.table == contentTable)).length = 3 ∧
    ((processMessageEdits domains m).filter (fun r => r.table == msgTable)).length = 1 := by
  unfold isRelevant at h0 h1 h2
  have hmain : processMessageEdits domains m =
      [createEntry v0, storeRevision v0, storeRevision v1, storeRevision v2] := by
    unfold processMessageEdits
    rw [he]
    show processMessage domains v0 false ++
      ([processMessage domains v1 true, processMessage domains v2 true]).flatten = _
    unfold processMessage
    rw [h0, h1, h2]
    rfl
  refine ⟨hmain, ?_, ?_⟩ <;> rw [hmain] <;>
    simp [createEntry, storeRevision, insertRow, List.filter,
      (by decide : (msgTable == contentTable) = false),
      (by decide : (contentTable == contentTable) = true),
      (by decide : (contentTable == msgTable) = false),
      (by decide : (msgTable == msgTable) = true)]

/-- Witness for C1: a concrete three-version message, every version
relevant, yielding the four expected rows in order. -/
theorem c1_ordered_revisions_witness :
    isRelevant [pastebinL] c1w0.content = true ∧
    isRelevant [pastebinL] c1w1.content = true ∧
    isRelevant [pastebinL] c1w2.content = true ∧
    processMessageEdits [pastebinL] c1wmsg =
      [createEntry c1w0, storeRevision c1w0, storeRevision c1w1, storeRevision c1w2] :=
  ⟨by decide, by decide, by decide,
    (c1_ordered_revisions [pastebinL] c1wmsg c1w0 c1w1 c1w2 rfl
      (by decide) (by decide) (by decide)).1⟩

/-! ## Claim C6 -/

/-- C6: an edited version processed with `isEdit = true` (crawler edit path
or live update path) yields exactly one revision append and no identity row
when relevant — including a message that was irrelevant as created and became
relevant only through the edit, whose stored revision then references an
identity row that was never created. -/
theorem c6_edit_path :
    (∀ (domains : List (List Char)) (m : MsgSnap),
      processMessage domains m true =
        if isRelevant domains m.content then [storeRevision m] else []) ∧
    (∀ (cfg : BotConfig) (oldM newM : MsgSnap), (cfg.parse && cfg.oneshot) = false →
      onMessageUpdate cfg oldM newM = processMessage cfg.domains newM true) ∧
    (∀ (domains : List (List Char)) (m : Msg) (v0 v1 : MsgSnap),
      m.edits = [v1, v0] → isRelevant domains v0.content = false →
      isRelevant domains v1.content = true →
      processMessageEdits domains m = [storeRevision v1] ∧
        ∀ r ∈ processMessageEdits domains m, r.table = contentTable) := by
  refine ⟨?_, ?_, ?_⟩
  · intro domains m
    unfold processMessage isRelevant
    cases h : containsCode m.content || containsUrl domains m.content <;> simp [h]
  · intro cfg oldM newM h
    unfold onMessageUpdate
    rw [h]
    simp
  · intro domains m v0 v1 he h0 h1
    unfold isRelevant at h0 h1
    have hmain : processMessageEdits domains m = [storeRevision v1] := by
      unfold processMessageEdits
      rw [he]
      show processMessage domains v0 false ++ ([processMessage domains v1 true]).flatten = _
      unfold processMessage
      rw [h0, h1]
      rfl
    refine ⟨hmain, ?_⟩
    rw [hmain]
    intro r hr
    rw [List.mem_singleton] at hr
    rw [hr]
    rfl

/-- Witness for C6: a message created irrelevant and edited into relevance;
the trace is a single Content-table append. -/
theorem c6_edit_path_witness :
    isRelevant [] c6v0.content = false ∧
    isRelevant [] c6v1.content = true ∧
    processMessageEdits [] c6msg = [storeRevision c6v1] :=
  ⟨by decide, by decide,
    (c6_edit_path.2.2 [] c6msg c6v0 c6v1 rfl (by decide) (by decide)).1⟩

/-! ## Claim C8 -/

/-- C8 counterexample: a message edited at timestamp 0 (a falsy number in
JavaScript) stores its creation time, not its edit time, because
`getLatestTimestamp` uses `||`. -/
theorem c8_counterexample :
    c8m.editedTimestamp = some 0 ∧
    c8m.createdTimestamp = 5 ∧
    getLatestTimestamp c8m ≠ 0 ∧
    storeRevision c8m =
      insertRow contentTable [DBValue.vstr c8m.content, DBValue.vnum 5, DBValue.vnum c8m.id] := by
  decide

/-- C8 (amended): the timestamp recorded with every stored revision is the
message's edit time when it has been edited and that edit time is nonzero;
when the message was never edited, or its edit timestamp is the falsy number
0, the creation time is recorded instead. -/
theorem c8_timestamp :
    (∀ (m : MsgSnap) (t : Nat), m.editedTimestamp = some t → t ≠ 0 →
      storeRevision m =
        insertRow contentTable [DBValue.vstr m.content, DBValue.vnum t, DBValue.vnum m.id]) ∧
    (∀ m : MsgSnap, m.editedTimestamp = none →
      storeRevision m =
        insertRow contentTable
          [DBValue.vstr m.content, DBValue.vnum m.createdTimestamp, DBValue.vnum m.id]) ∧
    (∀ m : MsgSnap, m.editedTimestamp = some 0 →
      storeRevision m =
        insertRow contentTable
          [DBValue.vstr m.content, DBValue.vnum m.createdTimestamp, DBValue.vnum m.id]) := by
  refine ⟨?_, ?_, ?_⟩
  · intro m t h ht
    unfold storeRevision getLatestTimestamp
    rw [h]
    simp [ht]
  · intro m h
    unfold storeRevision getLatestTimestamp
    rw [h]
  · intro m h
    unfold storeRevision getLatestTimestamp
    rw [h]
    simp

/-- Witness for C8: a nonzero edit timestamp is the one recorded. -/
theorem c8_timestamp_witness :
    c8w.editedTimestamp = some 9 ∧ (9 : Nat) ≠ 0 ∧
    storeRevision c8w =
      insertRow contentTable [DBValue.vstr c8w.content, DBValue.vnum 9, DBValue.vnum c8w.id] :=
  ⟨rfl, by decide, c8_timestamp.1 c8w 9 rfl (by decide)⟩

/-! ## Claim C9 -/

/-- Helper: applying a sequence of inserts appends it; nothing already stored
is removed or changed. -/
theorem applyOps_eq_append (db ops : List RowInsert) : applyOps db ops = db ++ ops := by
  induction ops generalizing db with
  | nil => simp [applyOps]
  | cons r ops ih =>
    show applyOps (db ++ [r]) ops = _
    rw [ih]
    simp

/-- C9: the revision table is append-only — the pipeline's only operation is
a row insert, so applying any trace leaves the prior rows as a prefix; in
particular a message created relevant and then edited into irrelevance keeps
its original revision in storage. -/
theorem c9_append_only :
    (∀ (db ops : List RowInsert), applyOps db ops = db ++ ops) ∧
    (∀ (domains : List (List Char)) (v0 v1 : MsgSnap) (db0 : List RowInsert),
      isRelevant domains v0.content = true → isRelevant domains v1.content = false →
      applyOps (applyOps db0 (processMessage domains v0 false)) (processMessage domains v1 true) =
        db0 ++ [createEntry v0, storeRevision v0] ∧
      storeRevision v0 ∈
        applyOps (applyOps db0 (processMessage domains v0 false))
          (processMessage domains v1 true)) := by
  refine ⟨applyOps_eq_append, ?_⟩
  intro domains v0 v1 db0 h0 h1
  unfold isRelevant at h0 h1
  have e0 : processMessage domains v0 false = [createEntry v0, storeRevision v0] := by
    unfold processMessage
    rw [h0]
    rfl
  have e1 : processMessage domains v1 true = [] := by
    unfold processMessage
    rw [h1]
    simp
  rw [e0, e1, applyOps_eq_append, applyOps_eq_append]
  constructor
  · simp
  · simp

/-- Witness for C9: the concrete round-trip; the original revision row is
still present after the irrelevant edit. -/
theorem c9_append_only_witness :
    isRelevant [] c9v0.content = true ∧
    isRelevant [] c9v1.content = false ∧
    storeRevision c9v0 ∈
      applyOps (applyOps [] (processMessage [] c9v0 false)) (processMessage [] c9v1 true) :=
  ⟨by decide, by decide, (c9_append_only.2 [] c9v0 c9v1 [] (by decide) (by decide)).2⟩

/-! ## Claim C3 -/

/-- Helper: a page never exceeds the fetch limit. -/
theorem fetchPage_length_le (msgs : List Msg) (before : Option Nat) :
    (fetchPage msgs before).length ≤ pageLimit := by
  cases before with
  | none => exact List.length_take_le _ _
  | some b => exact List.length_take_le _ _

/-- Helper: a failing fetch call ends the channel scan with nothing more. -/
theorem scanStepFail (domains : List (List Char)) (ch : ChannelModel) (f i : Nat)
    (before : Option Nat) (h : ch.failOn i = true) :
    scanChannelAux domains ch (f + 1) i before = ⟨[], [], false, true⟩ := by
  unfold scanChannelAux
  rw [h]
  simp

/-- Helper: a full page recurses, cursored on the oldest fetched message. -/
theorem scanStepFull (domains : List (List Char)) (ch : ChannelModel) (f i : Nat)
    (before : Option Nat) (hfail : ch.failOn i = false)
    (hlen : (fetchPage ch.msgs before).length = pageLimit) :
    scanChannelAux domains ch (f + 1) i before =
      ⟨pageLimit ::
          (scanChannelAux domains ch f (i + 1)
            (((fetchPage ch.msgs before).getLast?).map (fun m => m.id))).pages,
        ((fetchPage ch.msgs before).map (fun m => processMessageEdits domains m)).flatten ++
          (scanChannelAux domains ch f (i + 1)
            (((fetchPage ch.msgs before).getLast?).map (fun m => m.id))).ops,
        (scanChannelAux domains ch f (i + 1)
          (((fetchPage ch.msgs before).getLast?).map (fun m => m.id))).exhausted,
        (scanChannelAux domains ch f (i + 1)
          (((fetchPage ch.msgs before).getLast?).map (fun m => m.id))).errored⟩ := by
  conv_lhs => unfold scanChannelAux
  simp [hfail, hlen]

/-- Helper: a page shorter than the limit exhausts the channel, with no
further fetch. -/
theorem scanStepShort (domains : List (List Char)) (ch : ChannelModel) (f i : Nat)
    (before : Option Nat) (hfail : ch.failOn i = false)
    (hlen : (fetchPage ch.msgs before).length ≠ pageLimit) :
    scanChannelAux domains ch (f + 1) i before =
      ⟨[(fetchPage ch.msgs before).length],
        ((fetchPage ch.msgs before).map (fun m => processMessageEdits domains m)).flatten,
        true, false⟩ := by
  unfold scanChannelAux
  rw [hfail]
  simp [hlen]

/-- Helper: dropping up to a uniquely-identified last message. -/
theorem dropWhile_ne_id (b : Nat) (init : List Msg) (last : Msg) (hlast : last.id = b)
    (hinit : ∀ m ∈ init, m.id ≠ b) :
    List.dropWhile (fun m => m.id != b) (init ++ [last]) = [last] := by
  induction init with
  | nil => simp [List.dropWhile_cons, hlast]
  | cons m ms ih =>
    have hm : m.id ≠ b := hinit m (by simp)
    simp only [List.cons_append, List.dropWhile_cons]
    rw [if_pos (by simp [hm])]
    exact ih (fun x hx => hinit x (by simp [hx]))

/-- Helper: the page after the oldest message of a channel is empty. -/
theorem fetchPage_after_last (init : List Msg) (last : Msg)
    (hinit : ∀ m ∈ init, m.id ≠ last.id) :
    fetchPage (init ++ [last]) (some last.id) = [] := by
  show List.take pageLimit
      (List.drop 1 (List.dropWhile (fun m => m.id != last.id) (init ++ [last]))) = []
  rw [dropWhile_ne_id last.id init last rfl hinit]
  rfl

/-- C3: pages are at most PAGE_SIZE = 100 messages; the crawler recurses,
cursored on the oldest fetched message's id, exactly when a page had exactly
PAGE_SIZE messages, and declares the channel exhausted otherwise; a channel
with exactly PAGE_SIZE messages takes exactly two fetch calls (one full page,
one empty) and is exhausted after the second. -/
theorem c3_pagination :
    (∀ (msgs : List Msg) (before : Option Nat), (fetchPage msgs before).length ≤ pageLimit) ∧
    pageLimit = 100 ∧
    (∀ (domains : List (List Char)) (ch : ChannelModel) (f i : Nat) (before : Option Nat),
      ch.failOn i = false → (fetchPage ch.msgs before).length = pageLimit →
      scanChannelAux domains ch (f + 1) i before =
        ⟨pageLimit ::
            (scanChannelAux domains ch f (i + 1)
              (((fetchPage ch.msgs before).getLast?).map (fun m => m.id))).pages,
          ((fetchPage ch.msgs before).map (fun m => processMessageEdits domains m)).flatten ++
            (scanChannelAux domains ch f (i + 1)
              (((fetchPage ch.msgs before).getLast?).map (fun m => m.id))).ops,
          (scanChannelAux domains ch f (i + 1)
            (((fetchPage ch.msgs before).getLast?).map (fun m => m.id))).exhausted,
          (scanChannelAux domains ch f (i + 1)
            (((fetchPage ch.msgs before).getLast?).map (fun m => m.id))).errored⟩) ∧
    (∀ (domains : List (List Char)) (ch : ChannelModel) (f i : Nat) (before : Option Nat),
      ch.failOn i = false → (fetchPage ch.msgs before).length ≠ pageLimit →
      scanChannelAux domains ch (f + 1) i before =
        ⟨[(fetchPage ch.msgs before).length],
          ((fetchPage ch.msgs before).map (fun m => processMessageEdits domains m)).flatten,
          true, false⟩) ∧
    (∀ (domains : List (List Char)) (ch : ChannelModel) (init : List Msg) (last : Msg),
      ch.msgs = init ++ [last] → ch.msgs.length = pageLimit →
      (∀ i, ch.failOn i = false) → (∀ m ∈ init, m.id ≠ last.id) →
      (scanChannel domains ch).pages = [pageLimit, 0] ∧
      (scanChannel domains ch).exhausted = true ∧
      (scanChannel domains ch).errored = false) := by
  refine ⟨fetchPage_length_le, rfl, scanStepFull, scanStepShort, ?_⟩
  intro domains ch init last hmsgs hlen hfail hinit
  have hp1 : fetchPage ch.msgs none = ch.msgs := by
    show List.take pageLimit ch.msgs = ch.msgs
    rw [← hlen]
    exact List.take_length ch.msgs
  have hp1len : (fetchPage ch.msgs none).length = pageLimit := by rw [hp1, hlen]
  have hcur : ((fetchPage ch.msgs none).getLast?).map (fun m => m.id) = some last.id := by
    rw [hp1, hmsgs, List.getLast?_concat]
    rfl
  have hp2 : fetchPage ch.msgs (some last.id) = [] := by
    rw [hmsgs]
    exact fetchPage_after_last init last hinit
  have step1 := scanStepFull domains ch pageLimit 0 none (hfail 0) hp1len
  have step2 : scanChannelAux domains ch pageLimit (0 + 1) (some last.id) =
      ⟨[0], [], true, false⟩ := by
    have h := scanStepShort domains ch 99 (0 + 1) (some last.id) (hfail (0 + 1))
      (by rw [hp2]; decide)
    rw [hp2] at h
    exact h
  unfold scanChannel
  rw [hlen]
  rw [step1, hcur, step2]
  refine ⟨rfl, rfl, rfl⟩

/-- Witness for C3: a concrete channel with exactly 100 distinct-id messages
is fetched in exactly two pages (100 then 0) and then exhausted. -/
theorem c3_pagination_witness :
    c3chan.msgs = c3init ++ [c3last] ∧
    c3chan.msgs.length = pageLimit ∧
    (∀ m ∈ c3init, m.id ≠ c3last.id) ∧
    (scanChannel [] c3chan).pages = [pageLimit, 0] ∧
    (scanChannel [] c3chan).exhausted = true :=
  ⟨rfl, by decide, by decide,
    (c3_pagination.2.2.2.2 [] c3chan c3init c3last rfl (by decide)
      (fun _ => rfl) (by decide)).1,
    (c3_pagination.2.2.2.2 [] c3chan c3init c3last rfl (by decide)
      (fun _ => rfl) (by decide)).2.1⟩

/-! ## Claim C7 -/

/-- Helper: an errored channel scan never reaches the exhausted branch. -/
theorem scan_errored_not_exhausted (domains : List (List Char)) (ch : ChannelModel) :
    ∀ (f i : Nat) (before : Option Nat),
      (scanChannelAux domains ch f i before).errored = true →
      (scanChannelAux domains ch f i before).exhausted = false := by
  intro f
  induction f with
  | zero =>
    intro i before h
    simp [scanChannelAux] at h
  | succ f ih =>
    intro i before h
    unfold scanChannelAux at h ⊢
    cases hf : ch.failOn i with
    | true => simp [hf]
    | false =>
      simp only [hf, Bool.false_eq_true, if_false] at h ⊢
      by_cases hl : (fetchPage ch.msgs before).length = pageLimit
      · simp only [hl, if_true, eq_self_iff_true, if_pos] at h ⊢
        exact ih _ _ h
      · simp [hl] at h

/-- Helper: one non-exhausted channel keeps the exhausted-filter strictly
short of the channel count. -/
theorem filter_exhausted_lt (domains : List (List Char)) (channels : List ChannelModel)
    (ch : ChannelModel) (hmem : ch ∈ channels)
    (hbad : (scanChannel domains ch).exhausted = false) :
    ((channels.map (fun c => scanChannel domains c)).filter (fun r => r.exhausted)).length <
      channels.length := by
  induction channels with
  | nil => cases hmem
  | cons c cs ih =>
    have hle : ((cs.map (fun c => scanChannel domains c)).filter
        (fun r => r.exhausted)).length ≤ cs.length := by
      calc ((cs.map (fun c => scanChannel domains c)).filter (fun r => r.exhausted)).length
          ≤ (cs.map (fun c => scanChannel domains c)).length := List.length_filter_le _ _
        _ = cs.length := List.length_map _ _
    rcases List.mem_cons.mp hmem with rfl | hmem'
    · simp only [List.map_cons, List.filter_cons, hbad, Bool.false_eq_true, if_false,
        List.length_cons]
      omega
    · have hlt := ih hmem'
      cases he : (scanChannel domains c).exhausted with
      | true =>
        simp only [List.map_cons, List.filter_cons, he, if_true, List.length_cons]
        omega
      | false =>
        simp only [List.map_cons, List.filter_cons, he, Bool.false_eq_true, if_false,
          List.length_cons]
        omega

/-- C7: a rejected page fetch ends that channel's crawl on the spot (nothing
fetched or stored afterwards, no retry), the channel never reaches the
exhausted branch, so the shared completion counter is not decremented for it
and the completion signal never fires. -/
theorem c7_fetch_failure :
    (∀ (domains : List (List Char)) (ch : ChannelModel) (f i : Nat) (before : Option Nat),
      ch.failOn i = true →
      scanChannelAux domains ch (f + 1) i before = ⟨[], [], false, true⟩) ∧
    (∀ (domains : List (List Char)) (ch : ChannelModel),
      (scanChannel domains ch).errored = true →
      (scanChannel domains ch).exhausted = false) ∧
    (∀ (domains : List (List Char)) (channels : List ChannelModel) (ch : ChannelModel),
      ch ∈ channels → (scanChannel domains ch).errored = true →
      (scanHistory domains channels).1 ≥ 1 ∧ (scanHistory domains channels).2 = false) := by
  refine ⟨scanStepFail, ?_, ?_⟩
  · intro domains ch h
    exact scan_errored_not_exhausted domains ch _ _ _ h
  · intro domains channels ch hmem herr
    have hbad := scan_errored_not_exhausted domains ch _ _ _ herr
    have hlt := filter_exhausted_lt domains channels ch hmem hbad
    constructor
    · simp only [scanHistory]
      omega
    · simp only [scanHistory]
      rw [decide_eq_false_iff_not]
      rintro ⟨_, h0⟩
      omega

/-- Witness for C7: a channel whose first fetch rejects leaves the counter at
1 and the completion signal unfired. -/
theorem c7_fetch_failure_witness :
    c7chan.failOn 0 = true ∧
    (scanChannel [] c7chan).errored = true ∧
    (scanChannel [] c7chan).exhausted = false ∧
    (scanHistory [] [c7chan]).1 ≥ 1 ∧
    (scanHistory [] [c7chan]).2 = false :=
  ⟨rfl, by decide,
    c7_fetch_failure.2.1 [] c7chan (by decide),
    (c7_fetch_failure.2.2 [] [c7chan] c7chan (by simp) (by decide)).1,
    (c7_fetch_failure.2.2 [] [c7chan] c7chan (by simp) (by decide)).2⟩

/-! ## Claim C5 -/

/-- Helper: the fence marker matches at the front. -/
theorem afterTicks_ticks (r : List Char) : afterTicks (ticksL ++ r) = some r := by
  show afterTicks (tick :: tick :: tick :: r) = some r
  simp [afterTicks]

/-- Helper: a non-backtick head is skipped. -/
theorem afterTicks_cons_ne (c : Char) (s : List Char) (h : c ≠ tick) :
    afterTicks (c :: s) = afterTicks s := by
  simp [afterTicks, h]

/-- Helper: a backtick-free prefix is skipped. -/
theorem afterTicks_append (pre s : List Char) (h : ∀ c ∈ pre, c ≠ tick) :
    afterTicks (pre ++ s) = afterTicks s := by
  induction pre with
  | nil => rfl
  | cons c pre ih =>
    rw [List.cons_append, afterTicks_cons_ne c _ (h c (by simp))]
    exact ih (fun x hx => h x (by simp [hx]))

/-- Helper: no backtick, no fence. -/
theorem afterTicks_none (s : List Char) (h : ∀ c ∈ s, c ≠ tick) : afterTicks s = none := by
  induction s with
  | nil => rfl
  | cons c s ih =>
    rw [afterTicks_cons_ne c _ (h c (by simp))]
    exact ih (fun x hx => h x (by simp [hx]))

/-- Helper: the split at a first fence, when the part before it is
backtick-free. -/
theorem splitAtTicks_exact (b r : List Char) (hb : ∀ c ∈ b, c ≠ tick) :
    splitAtTicks (b ++ ticksL ++ r) = some (b, r) := by
  induction b with
  | nil =>
    show splitAtTicks (tick :: tick :: tick :: r) = some ([], r)
    simp [splitAtTicks]
  | cons c b ih =>
    have hc : c ≠ tick := hb c (by simp)
    show splitAtTicks (c :: (b ++ ticksL ++ r)) = some (c :: b, r)
    rw [splitAtTicks]
    rw [if_neg (by simp [hc])]
    rw [ih (fun x hx => hb x (by simp [hx]))]

/-- Helper: any list containing the fence marker splits. -/
theorem splitAtTicks_some_of : ∀ (s d e : List Char), s = d ++ ticksL ++ e →
    ∃ b r, splitAtTicks s = some (b, r) := by
  intro s
  induction s with
  | nil =>
    intro d e h
    exfalso
    have := congrArg List.length h
    simp [ticksL] at this
    omega
  | cons c s ih =>
    intro d e h
    by_cases hcond : c = tick ∧ s.take 2 = [tick, tick]
    · refine ⟨[], s.drop 2, ?_⟩
      rw [splitAtTicks, if_pos hcond]
    · cases d with
      | nil =>
        exfalso
        apply hcond
        simp [ticksL] at h
        exact ⟨h.1, by rw [h.2]; rfl⟩
      | cons c0 d' =>
        simp only [List.cons_append] at h
        have h2 : s = d' ++ ticksL ++ e := by
          injection h with _ h2
        obtain ⟨b, r, hbr⟩ := ih d' e h2
        refine ⟨c :: b, r, ?_⟩
        rw [splitAtTicks, if_neg hcond, hbr]

/-- Helper: takeWhile over a satisfying prefix stops at the first failure. -/
theorem takeWhile_prefix_stop (p : Char → Bool) (u : List Char) (v : Char) (w : List Char)
    (hu : ∀ c ∈ u, p c = true) (hv : p v = false) :
    (u ++ v :: w).takeWhile p = u := by
  induction u with
  | nil => simp [List.takeWhile_cons, hv]
  | cons c u ih =>
    have hc := hu c (by simp)
    simp [List.takeWhile_cons, hc, ih (fun x hx => hu x (by simp [hx]))]

/-- Helper: dropWhile cannot cross a failing element. -/
theorem dropWhile_append_stop (p : Char → Bool) (u : List Char) (v : Char) (w : List Char)
    (hv : p v = false) :
    (u ++ v :: w).dropWhile p = u.dropWhile p ++ v :: w := by
  induction u with
  | nil => simp [List.dropWhile_cons, hv]
  | cons c u ih =>
    cases hc : p c with
    | true => simp [List.dropWhile_cons, hc, ih]
    | false => simp [List.dropWhile_cons, hc]

/-- Helper: dropWhile as a drop of the takeWhile length. -/
theorem dropWhile_eq_drop (p : Char → Bool) (l : List Char) :
    l.dropWhile p = l.drop (l.takeWhile p).length := by
  induction l with
  | nil => rfl
  | cons c l ih =>
    cases hc : p c with
    | true => simp [List.dropWhile_cons, List.takeWhile_cons, hc, ih]
    | false => simp [List.dropWhile_cons, List.takeWhile_cons, hc]

/-- Helper: removing a backtick-free prefix keeps a fence decomposition. -/
theorem ticks_in_suffix (pre : List Char) :
    ∀ (y d e : List Char), (∀ c ∈ pre, c ≠ tick) → pre ++ y = d ++ ticksL ++ e →
    ∃ d2, y = d2 ++ ticksL ++ e := by
  induction pre with
  | nil =>
    intro y d e _ h
    exact ⟨d, by simpa using h⟩
  | cons c pre ih =>
    intro y d e hpre h
    cases d with
    | nil =>
      exfalso
      apply hpre c (by simp)
      simp [ticksL] at h
      exact h.1
    | cons c0 d' =>
      simp only [List.cons_append] at h
      have h2 : pre ++ y = d' ++ ticksL ++ e := by
        injection h with _ h2
      exact ih y d' e (fun x hx => hpre x (by simp [hx])) h2

/-- Helper: dropWhile with a predicate false on backticks keeps a fence
decomposition. -/
theorem dropWhile_keeps_ticks (p : Char → Bool) (hp : p tick = false) :
    ∀ (d y e : List Char), y = d ++ ticksL ++ e → ∃ d2, y.dropWhile p = d2 ++ ticksL ++ e := by
  intro d
  induction d with
  | nil =>
    intro y e hy
    subst hy
    refine ⟨[], ?_⟩
    show ((ticksL ++ e) : List Char).dropWhile p = _
    simp [ticksL, List.dropWhile_cons, hp]
  | cons c d' ih =>
    intro y e hy
    subst hy
    cases hc : p c with
    | false =>
      refine ⟨c :: d', ?_⟩
      simp [List.dropWhile_cons, hc]
    | true =>
      obtain ⟨d2, hd2⟩ := ih (d' ++ ticksL ++ e) e rfl
      refine ⟨d2, ?_⟩
      simp only [List.cons_append, List.dropWhile_cons, hc, if_true]
      exact hd2

/-- Helper: the exact match attempt on a tagged fence with a backtick-free
body. -/
theorem fenceAttempt_tagged (lang body post : List Char)
    (hlang : lang ≠ []) (hlow : ∀ c ∈ lang, Char.isLower c = true)
    (hbody : ∀ c ∈ body, c ≠ tick) :
    fenceAttempt (lang ++ '\n' :: (body ++ ticksL ++ post)) =
      some (⟨some lang, trimNewlines body⟩, post) := by
  have hTW : (lang ++ '\n' :: (body ++ ticksL ++ post)).takeWhile Char.isLower = lang :=
    takeWhile_prefix_stop _ lang '\n' _ hlow (by decide)
  have hdropL : (lang ++ '\n' :: (body ++ ticksL ++ post)).drop lang.length =
      '\n' :: (body ++ ticksL ++ post) := List.drop_left lang _
  have hdropL1 : (lang ++ '\n' :: (body ++ ticksL ++ post)).drop (lang.length + 1) =
      body ++ ticksL ++ post := by
    have hsh : lang ++ '\n' :: (body ++ ticksL ++ post) =
        (lang ++ ['\n']) ++ (body ++ ticksL ++ post) := by simp
    have hl : (lang ++ ['\n']).length = lang.length + 1 := by simp
    rw [hsh, ← hl]
    exact List.drop_left _ _
  have hDW : (body ++ ticksL ++ post).dropWhile nlP =
      body.dropWhile nlP ++ ticksL ++ post := by
    have hsh : body ++ ticksL ++ post = body ++ tick :: (tick :: tick :: post) := by
      simp [ticksL]
    rw [hsh, dropWhile_append_stop nlP body tick _ (by decide)]
    simp [ticksL]
  have hb : ∀ c ∈ body.dropWhile nlP, c ≠ tick :=
    fun c hc => hbody c (List.Sublist.mem hc (List.dropWhile_sublist _))
  unfold fenceAttempt
  rw [hTW, hdropL]
  rw [if_pos ⟨hlang, rfl⟩]
  rw [hdropL1, hDW, splitAtTicks_exact _ post hb]
  rfl

/-- Helper: the match attempt succeeds whenever a closing fence exists. -/
theorem fenceAttempt_some (x d e : List Char) (hx : x = d ++ ticksL ++ e) :
    ∃ blk rest, fenceAttempt x = some (blk, rest) := by
  by_cases hcond : x.takeWhile Char.isLower ≠ [] ∧
      (x.drop (x.takeWhile Char.isLower).length).head? = some '\n'
  · obtain ⟨L, hLdef⟩ : ∃ L, x.takeWhile Char.isLower = L := ⟨_, rfl⟩
    rw [hLdef] at hcond
    have hxsplit : L ++ x.dropWhile Char.isLower = x := by
      rw [← hLdef]
      exact List.takeWhile_append_dropWhile _ _
    have hDWdrop : x.dropWhile Char.isLower = x.drop L.length := by
      rw [← hLdef]
      exact dropWhile_eq_drop _ _
    obtain ⟨v, w, hvw⟩ : ∃ v w, x.dropWhile Char.isLower = v :: w := by
      cases hD : x.dropWhile Char.isLower with
      | nil =>
        exfalso
        have h2 := hcond.2
        rw [← hDWdrop, hD] at h2
        cases h2
      | cons v w => exact ⟨v, w, rfl⟩
    have hv : v = '\n' := by
      have h2 := hcond.2
      rw [← hDWdrop, hvw] at h2
      simpa using h2
    have hx2 : x = L ++ '\n' :: w := by
      conv_lhs => rw [← hxsplit, hvw, hv]
    have hLlow : ∀ c ∈ L, Char.isLower c = true := by
      intro c hc
      rw [← hLdef] at hc
      exact List.mem_takeWhile_imp hc
    have hpre : ∀ c ∈ (L ++ ['\n']), c ≠ tick := by
      intro c hc
      rcases List.mem_append.mp hc with hcm | hcm
      · have hlow := hLlow c hcm
        intro hct
        rw [hct] at hlow
        exact absurd hlow (by decide)
      · simp at hcm
        rw [hcm]
        decide
    obtain ⟨d2, hw⟩ : ∃ d2, w = d2 ++ ticksL ++ e := by
      apply ticks_in_suffix (L ++ ['\n']) w d e hpre
      calc (L ++ ['\n']) ++ w = x := by rw [hx2]; simp
        _ = d ++ ticksL ++ e := hx
    have hdrop1 : x.drop (L.length + 1) = w := by
      have hsh : x = (L ++ ['\n']) ++ w := by
        rw [hx2]; simp
      have hl : (L ++ ['\n']).length = L.length + 1 := by simp
      conv_lhs => rw [hsh]
      rw [← hl]
      exact List.drop_left _ _
    obtain ⟨d3, hw3⟩ := dropWhile_keeps_ticks nlP (by decide) d2 w e hw
    obtain ⟨b, r, hbr⟩ := splitAtTicks_some_of (w.dropWhile nlP) d3 e hw3
    refine ⟨⟨some L, dropTrailingNL b⟩, r, ?_⟩
    unfold fenceAttempt
    rw [hLdef]
    rw [if_pos hcond, hdrop1, hbr]
  · obtain ⟨d3, hx3⟩ := dropWhile_keeps_ticks nlP (by decide) d x e hx
    obtain ⟨b, r, hbr⟩ := splitAtTicks_some_of (x.dropWhile nlP) d3 e hx3
    refine ⟨⟨none, dropTrailingNL b⟩, r, ?_⟩
    unfold fenceAttempt
    rw [if_neg hcond, hbr]

/-- Helper: the first fence is found, no further right than any given one. -/
theorem afterTicks_some_suffix : ∀ (s d e : List Char), s = d ++ ticksL ++ e →
    ∃ r d2, afterTicks s = some r ∧ s = d2 ++ ticksL ++ r ∧ d2.length ≤ d.length := by
  intro s
  induction s with
  | nil =>
    intro d e h
    exfalso
    have := congrArg List.length h
    simp [ticksL] at this
    omega
  | cons c s ih =>
    intro d e h
    by_cases hcond : c = tick ∧ s.take 2 = [tick, tick]
    · obtain ⟨h1, h2⟩ := hcond
      have hs : s = tick :: tick :: s.drop 2 := by
        cases s with
        | nil => simp at h2
        | cons a s' =>
          cases s' with
          | nil => simp at h2
          | cons a2 s'' =>
            simp [List.take] at h2
            obtain ⟨ha, ha2⟩ := h2
            rw [ha, ha2]
            rfl
      refine ⟨s.drop 2, [], ?_, ?_, by simp⟩
      · rw [afterTicks, if_pos ⟨h1, h2⟩]
      · simp [ticksL]
        exact ⟨h1, hs⟩
    · cases d with
      | nil =>
        exfalso
        apply hcond
        simp [ticksL] at h
        exact ⟨h.1, by rw [h.2]; rfl⟩
      | cons c0 d' =>
        simp only [List.cons_append] at h
        have h2 : s = d' ++ ticksL ++ e := by
          injection h with _ h2
        obtain ⟨r, d2, hat, hdec, hlen⟩ := ih d' e h2
        refine ⟨r, c :: d2, ?_, ?_, ?_⟩
        · rw [afterTicks, if_neg hcond, hat]
        · simp [hdec]
        · simp only [List.length_cons]
          omega

/-- Helper: a backtick-free text yields no blocks, at any fuel. -/
theorem getCodeBlocksF_nil_of_no_tick (f : Nat) (s : List Char) (h : ∀ c ∈ s, c ≠ tick) :
    getCodeBlocksF f s = [] := by
  cases f with
  | zero => rfl
  | succ f => simp [getCodeBlocksF, afterTicks_none s h]

/-- Helper: a text with an opening and a closing fence yields a block. -/
theorem getCodeBlocksF_ne_nil (f : Nat) (a b c : List Char) :
    getCodeBlocksF (f + 1) (a ++ ticksL ++ b ++ ticksL ++ c) ≠ [] := by
  have hs : a ++ ticksL ++ b ++ ticksL ++ c = a ++ ticksL ++ (b ++ ticksL ++ c) := by simp
  obtain ⟨r, d2, hat, hdec, hlen⟩ :=
    afterTicks_some_suffix (a ++ ticksL ++ b ++ ticksL ++ c) a (b ++ ticksL ++ c) hs
  obtain ⟨d3, hr⟩ : ∃ d3, r = d3 ++ ticksL ++ c := by
    have hrdrop : r = (a ++ ticksL ++ b ++ ticksL ++ c).drop (d2.length + 3) := by
      conv_rhs => rw [hdec]
      have hl : (d2 ++ ticksL).length = d2.length + 3 := by simp [ticksL]
      rw [← hl, List.drop_left]
    have hsplit : a ++ ticksL ++ b ++ ticksL ++ c =
        (a ++ ticksL) ++ (b ++ ticksL ++ c) := by simp
    have hz : d2.length + 3 - (a ++ ticksL).length = 0 := by
      simp only [List.length_append, ticksL, List.length_cons, List.length_nil]
      omega
    refine ⟨(a ++ ticksL).drop (d2.length + 3) ++ b, ?_⟩
    rw [hrdrop, hsplit, List.drop_append_eq_append_drop, hz]
    simp
  obtain ⟨blk, rest, hfa⟩ := fenceAttempt_some r d3 c hr
  simp only [getCodeBlocksF, hat, hfa]
  exact List.cons_ne_nil _ _

/-- C5: any text containing a complete fence (an opening "```" and a later
closing "```") is classified as containing code; and for a fenced block with
a lowercase language tag and a backtick-free body embedded in backtick-free
surroundings, the extracted pair is exactly the tag and the fence body with
its surrounding blank lines trimmed (the lazy match stops at the nearest
closing marker). -/
theorem c5_fenced_blocks :
    (∀ (a b c : List Char), containsCode (a ++ ticksL ++ b ++ ticksL ++ c) = true) ∧
    (∀ (pre lang body post : List Char),
      (∀ ch ∈ pre, ch ≠ tick) → lang ≠ [] → (∀ ch ∈ lang, Char.isLower ch = true) →
      (∀ ch ∈ body, ch ≠ tick) → (∀ ch ∈ post, ch ≠ tick) →
      getCodeBlocks (pre ++ ticksL ++ (lang ++ '\n' :: (body ++ ticksL ++ post))) =
        [⟨some lang, trimNewlines body⟩]) := by
  constructor
  · intro a b c
    unfold containsCode getCodeBlocks
    have h := getCodeBlocksF_ne_nil (a ++ ticksL ++ b ++ ticksL ++ c).length a b c
    cases hblocks : getCodeBlocksF ((a ++ ticksL ++ b ++ ticksL ++ c).length + 1)
        (a ++ ticksL ++ b ++ ticksL ++ c) with
    | nil => exact absurd hblocks h
    | cons blk rest => rfl
  · intro pre lang body post hpre hlang hlow hbody hpost
    unfold getCodeBlocks
    have key : ∀ f : Nat, getCodeBlocksF (f + 1)
        (pre ++ ticksL ++ (lang ++ '\n' :: (body ++ ticksL ++ post))) =
        [⟨some lang, trimNewlines body⟩] := by
      intro f
      have hAT : afterTicks (pre ++ ticksL ++ (lang ++ '\n' :: (body ++ ticksL ++ post))) =
          some (lang ++ '\n' :: (body ++ ticksL ++ post)) := by
        rw [List.append_assoc, afterTicks_append pre _ hpre, afterTicks_ticks]
      have hFA := fenceAttempt_tagged lang body post hlang hlow hbody
      simp only [getCodeBlocksF, hAT, hFA]
      rw [getCodeBlocksF_nil_of_no_tick f post hpost]
    exact key _

/-- Witness for C5: the concrete fenced message; the code is the body with
its surrounding blank lines trimmed. -/
theorem c5_fenced_blocks_witness :
    (∀ ch ∈ c5pre, ch ≠ tick) ∧ c5lang ≠ [] ∧
    (∀ ch ∈ c5lang, Char.isLower ch = true) ∧
    (∀ ch ∈ c5body, ch ≠ tick) ∧ (∀ ch ∈ c5post, ch ≠ tick) ∧
    getCodeBlocks (c5pre ++ ticksL ++ (c5lang ++ '\n' :: (c5body ++ ticksL ++ c5post))) =
      [⟨some c5lang, trimNewlines c5body⟩] :=
  ⟨by decide, by decide, by decide, by decide, by decide,
    c5_fenced_blocks.2 c5pre c5lang c5body c5post
      (by decide) (by decide) (by decide) (by decide) (by decide)⟩

/-! ## Claim C10 -/

/-- Helper: whenever a match attempt reports a language, it is a nonempty
run of lowercase letters (the shape `([a-z]+)\n` requires). -/
theorem fenceAttempt_lang (x : List Char) (blk : CodeBlock) (r : List Char)
    (h : fenceAttempt x = some (blk, r)) :
    ∀ l, blk.lang = some l → l ≠ [] ∧ ∀ c ∈ l, Char.isLower c = true := by
  unfold fenceAttempt at h
  by_cases hcond : x.takeWhile Char.isLower ≠ [] ∧
      (x.drop (x.takeWhile Char.isLower).length).head? = some '\n'
  · rw [if_pos hcond] at h
    cases hsp : splitAtTicks ((x.drop ((x.takeWhile Char.isLower).length + 1)).dropWhile nlP) with
    | none => rw [hsp] at h; cases h
    | some br =>
      obtain ⟨b, r2⟩ := br
      rw [hsp] at h
      injection h with h'
      have hblk : blk = ⟨some (x.takeWhile Char.isLower), dropTrailingNL b⟩ := by
        rw [Prod.ext_iff] at h'
        exact h'.1.symm
      intro l hl
      rw [hblk] at hl
      have hll : x.takeWhile Char.isLower = l := by
        simpa using hl
      rw [← hll]
      exact ⟨hcond.1, fun c hc => List.mem_takeWhile_imp hc⟩
  · rw [if_neg hcond] at h
    cases hsp : splitAtTicks (x.dropWhile nlP) with
    | none => rw [hsp] at h; cases h
    | some br =>
      obtain ⟨b, r2⟩ := br
      rw [hsp] at h
      injection h with h'
      intro l hl
      exfalso
      rw [Prod.ext_iff] at h'
      have h1 : ({ lang := none, code := dropTrailingNL b } : CodeBlock) = blk := h'.1
      rw [← h1] at hl
      simp at hl

/-- Helper: the language property propagates through the exec loop. -/
theorem getCodeBlocksF_lang : ∀ (f : Nat) (s : List Char) (blk : CodeBlock),
    blk ∈ getCodeBlocksF f s → ∀ l, blk.lang = some l →
    l ≠ [] ∧ ∀ c ∈ l, Char.isLower c = true := by
  intro f
  induction f with
  | zero =>
    intro s blk h
    simp [getCodeBlocksF] at h
  | succ f ih =>
    intro s blk h
    cases hat : afterTicks s with
    | none =>
      simp only [getCodeBlocksF, hat] at h
      cases h
    | some s1 =>
      cases hfa : fenceAttempt s1 with
      | none =>
        simp only [getCodeBlocksF, hat, hfa] at h
        cases h
      | some p =>
        obtain ⟨blk0, rest⟩ := p
        simp only [getCodeBlocksF, hat, hfa, List.mem_cons] at h
        rcases h with rfl | h
        · exact fenceAttempt_lang s1 blk rest hfa
        · exact ih rest blk h

/-- C10: a language tag is recognized only as a nonempty run of lowercase
ASCII letters immediately followed by a newline right after the opening
backticks; a fence whose opening tag has uppercase letters, digits, or a
leading space still counts as code but with no language, the tag text landing
in the extracted body; six consecutive backticks are an empty code block. -/
theorem c10_lang_tag :
    (∀ (s : List Char) (blk : CodeBlock), blk ∈ getCodeBlocks s →
      ∀ l, blk.lang = some l → l ≠ [] ∧ ∀ c ∈ l, Char.isLower c = true) ∧
    getCodeBlocks c10tagged = [⟨some ("py".toList), "z".toList⟩] ∧
    getCodeBlocks c10upper = [⟨none, "JS\nx".toList⟩] ∧
    getCodeBlocks c10digit = [⟨none, "x9\ny".toList⟩] ∧
    getCodeBlocks c10space = [⟨none, " py\nz".toList⟩] ∧
    getCodeBlocks c10empty = [⟨none, []⟩] :=
  ⟨fun s blk h => getCodeBlocksF_lang (s.length + 1) s blk h,
    by decide, by decide, by decide, by decide, by decide⟩

/-- Witness for C10: the recognized tag of the tagged sample is a nonempty
lowercase run. -/
theorem c10_lang_tag_witness :
    (⟨some ("py".toList), "z".toList⟩ : CodeBlock) ∈ getCodeBlocks c10tagged ∧
    ("py".toList ≠ [] ∧ ∀ c ∈ "py".toList, Char.isLower c = true) :=
  ⟨by decide, c10_lang_tag.1 c10tagged ⟨some ("py".toList), "z".toList⟩ (by decide) _ rfl⟩

/-! ## Claim C2 -/

/-- Helper: the domain pattern matches its own text (a '.' in the domain is
the wildcard, and the wildcard accepts '.'). -/
theorem matchDomainSplit_self : ∀ (domain r : List Char),
    matchDomainSplit domain (domain ++ r) = some (domain, r) := by
  intro domain
  induction domain with
  | nil => intro r; rfl
  | cons d ds ih =>
    intro r
    rw [List.cons_append, matchDomainSplit]
    have hcond : (if d = '.' then notLineTerm d else d == d) = true := by
      by_cases hd : d = '.'
      · rw [if_pos hd, hd]; decide
      · rw [if_neg hd]; exact beq_self_eq_true d
    rw [if_pos hcond, ih r]

/-- Helper: a successful domain-pattern match consumes exactly the domain's
length. -/
theorem matchDomainSplit_struct : ∀ (domain s dc r : List Char),
    matchDomainSplit domain s = some (dc, r) → s = dc ++ r ∧ dc.length = domain.length := by
  intro domain
  induction domain with
  | nil =>
    intro s dc r h
    simp [matchDomainSplit] at h
    obtain ⟨h1, h2⟩ := h
    subst h1
    subst h2
    exact ⟨rfl, rfl⟩
  | cons dch ds ih =>
    intro s dc r h
    cases s with
    | nil => simp [matchDomainSplit] at h
    | cons c s' =>
      rw [matchDomainSplit] at h
      by_cases hcc : (if dch = '.' then notLineTerm c else dch == c) = true
      · rw [if_pos hcc] at h
        cases hrec : matchDomainSplit ds s' with
        | none => rw [hrec] at h; simp at h
        | some p =>
          obtain ⟨dc0, r0⟩ := p
          rw [hrec] at h
          have h' : (c :: dc0, r0) = (dc, r) := by injection h
          injection h' with h1 h2
          subst h1
          subst h2
          obtain ⟨hs1, hs2⟩ := ih s' dc0 r0 hrec
          exact ⟨by rw [hs1]; rfl, by simp [hs2]⟩
      · rw [if_neg hcc] at h
        simp at h

/-- Helper: a successful lazy subdomain search decomposes the text into a
nonempty body, its final dot, and a successful domain-pattern match on
everything the domain part consumed. -/
theorem subSearch_struct : ∀ (s domain g dc rest : List Char),
    subSearch domain s = some (g, dc, rest) →
    s = g ++ dc ++ rest ∧ 2 ≤ g.length ∧ dc.length = domain.length ∧
    (∃ body, g = body ++ ['.'] ∧ body ≠ []) ∧
    matchDomainSplit domain (dc ++ rest) = some (dc, rest) := by
  intro s
  induction s with
  | nil =>
    intro domain g dc rest h
    simp [subSearch] at h
  | cons c s ih =>
    intro domain g dc rest h
    cases s with
    | nil => simp [subSearch] at h
    | cons d s2 =>
      unfold subSearch at h
      by_cases hnl : notLineTerm c = true
      · rw [if_pos hnl] at h
        by_cases hd : d = '.'
        · rw [if_pos hd] at h
          cases hmd : matchDomainSplit domain s2 with
          | some p =>
            obtain ⟨dc0, rest0⟩ := p
            rw [hmd] at h
            have h' : (([c, '.'], dc0, rest0) : List Char × List Char × List Char) =
                (g, dc, rest) := by injection h
            injection h' with h1 h23
            injection h23 with h2 h3
            subst h1
            subst h2
            subst h3
            obtain ⟨hs1, hs2⟩ := matchDomainSplit_struct domain s2 dc0 rest0 hmd
            refine ⟨?_, by simp, hs2, ⟨[c], rfl, by simp⟩, by rwa [hs1] at hmd⟩
            rw [hd, hs1]
            rfl
          | none =>
            rw [hmd] at h
            cases hss : subSearch domain (d :: s2) with
            | none => rw [hss] at h; simp at h
            | some q =>
              obtain ⟨g', dc', rest'⟩ := q
              rw [hss] at h
              have h' : ((c :: g', dc', rest') : List Char × List Char × List Char) =
                  (g, dc, rest) := by injection h
              injection h' with h1 h23
              injection h23 with h2 h3
              subst h1
              subst h2
              subst h3
              obtain ⟨hs1, hs2, hs3, ⟨body', hg', hb'⟩, hmt⟩ := ih domain g' dc' rest' hss
              refine ⟨?_, ?_, hs3, ⟨c :: body', by rw [hg']; rfl, by simp⟩, hmt⟩
              · rw [hs1]
                rfl
              · simp only [List.length_cons]
                omega
        · rw [if_neg hd] at h
          cases hss : subSearch domain (d :: s2) with
          | none => rw [hss] at h; simp at h
          | some q =>
            obtain ⟨g', dc', rest'⟩ := q
            rw [hss] at h
            have h' : ((c :: g', dc', rest') : List Char × List Char × List Char) =
                (g, dc, rest) := by injection h
            injection h' with h1 h23
            injection h23 with h2 h3
            subst h1
            subst h2
            subst h3
            obtain ⟨hs1, hs2, hs3, ⟨body', hg', hb'⟩, hmt⟩ := ih domain g' dc' rest' hss
            refine ⟨?_, ?_, hs3, ⟨c :: body', by rw [hg']; rfl, by simp⟩, hmt⟩
            · rw [hs1]
              rfl
            · simp only [List.length_cons]
              omega
      · rw [if_neg hnl] at h
        simp at h

/-- Helper: the subdomain group cannot fire on the bare-domain text when no
dot boundary in it (after at least one body character) admits a
domain-pattern match. -/
theorem subSearch_bare_none (domain post : List Char)
    (h : ∀ s1 s2, domain ++ post = s1 ++ '.' :: s2 → s1 ≠ [] →
      matchDomainSplit domain s2 = none) :
    subSearch domain (domain ++ post) = none := by
  cases hs : subSearch domain (domain ++ post) with
  | none => rfl
  | some q =>
    exfalso
    obtain ⟨g, dc, rest⟩ := q
    obtain ⟨h1, _, _, ⟨body, hg, hbody⟩, hmt⟩ := subSearch_struct _ domain g dc rest hs
    have hdec : domain ++ post = body ++ '.' :: (dc ++ rest) := by
      rw [h1, hg]
      simp
    have hnone := h body (dc ++ rest) hdec hbody
    rw [hnone] at hmt
    exact Option.noConfusion hmt

/-- Helper: a dot decomposition of a list, read positionally. -/
theorem decomp_of (L s1 s2 : List Char) (h : L = s1 ++ '.' :: s2) :
    s1.length < L.length ∧ (L.drop s1.length).head? = some '.' ∧
    L.drop (s1.length + 1) = s2 := by
  subst h
  refine ⟨?_, ?_, ?_⟩
  · simp only [List.length_append, List.length_cons]
    omega
  · rw [List.drop_left]
    rfl
  · have hsh : s1 ++ '.' :: s2 = (s1 ++ ['.']) ++ s2 := by simp
    have hl : (s1 ++ ['.']).length = s1.length + 1 := by simp
    rw [hsh, ← hl]
    exact List.drop_left _ _

/-- Helper: the lazy search stops exactly at the subdomain's final dot when
no earlier dot boundary inside the subdomain already completes a
domain-pattern match. -/
theorem subSearch_exact (domain : List Char) : ∀ (sub post : List Char), sub ≠ [] →
    (∀ c ∈ sub, notLineTerm c = true) →
    (∀ s1 s2, sub = s1 ++ '.' :: s2 →
      matchDomainSplit domain (s2 ++ '.' :: (domain ++ post)) = none) →
    subSearch domain (sub ++ '.' :: (domain ++ post)) =
      some (sub ++ ['.'], domain, post) := by
  intro sub
  induction sub with
  | nil => intro post h1 _ _; cases h1 rfl
  | cons c sub' ih =>
    intro post _ hnl hno
    cases hsub' : sub' with
    | nil =>
      show subSearch domain (c :: '.' :: (domain ++ post)) = some ([c, '.'], domain, post)
      unfold subSearch
      rw [if_pos (hnl c (by simp)), if_pos rfl, matchDomainSplit_self domain post]
    | cons c2 sub'' =>
      show subSearch domain (c :: c2 :: (sub'' ++ '.' :: (domain ++ post))) =
        some (c :: c2 :: (sub'' ++ ['.']), domain, post)
      have hrec : subSearch domain (c2 :: (sub'' ++ '.' :: (domain ++ post))) =
          some (c2 :: (sub'' ++ ['.']), domain, post) := by
        have hr := ih post (by rw [hsub']; simp)
          (fun x hx => hnl x (List.mem_cons_of_mem c hx))
          (fun s1 s2 hdec => hno (c :: s1) s2 (by rw [hdec]; rfl))
        rw [hsub'] at hr
        exact hr
      unfold subSearch
      rw [if_pos (hnl c (by simp))]
      by_cases hc2 : c2 = '.'
      · rw [if_pos hc2]
        have hmd : matchDomainSplit domain (sub'' ++ '.' :: (domain ++ post)) = none := by
          apply hno [c] sub''
          rw [hsub', hc2]
          rfl
        rw [hmd, hrec]
      · rw [if_neg hc2]
        rw [hrec]

/-- Helper: stripping an exact prefix. -/
theorem dropPre_self : ∀ (p r : List Char), dropPre p (p ++ r) = some r := by
  intro p
  induction p with
  | nil => intro r; rfl
  | cons c p ih =>
    intro r
    rw [List.cons_append, dropPre, if_pos rfl]
    exact ih r

/-- Helper: a match attempt fails immediately off an h. -/
theorem tryUrlAt_none_of_ne (domain : List Char) (c : Char) (rest : List Char) (h : c ≠ 'h') :
    tryUrlAt domain (c :: rest) = none := by
  have h1 : dropPre httpL (c :: rest) = none := by
    rw [show httpL = 'h' :: ['t', 't', 'p'] from rfl, dropPre,
      if_neg (fun heq => h heq.symm)]
  simp [tryUrlAt, h1]

/-- Helper: the optional path group consumes nothing when no slash follows. -/
theorem takePath_nopath (post : List Char) (hpost : ∀ c, post.head? = some c → c ≠ '/') :
    takePath post = ([], post) := by
  cases post with
  | nil => rfl
  | cons c rest => rw [takePath, if_neg (hpost c rfl)]

/-- Helper: scheme consumption. -/
theorem tryUrlAt_scheme (domain X : List Char) (secure : Bool) :
    tryUrlAt domain (schemeL secure ++ X) = afterScheme domain (schemeL secure) X := by
  cases secure with
  | false =>
    have h1 : dropPre httpL (schemeL false ++ X) = some (':' :: ('/' :: '/' :: X)) := by
      rw [show schemeL false ++ X = httpL ++ (':' :: ('/' :: '/' :: X)) from by
        simp [schemeL, schemeSepL]]
      exact dropPre_self _ _
    have h2 : dropPre schemeSepL (':' :: ('/' :: '/' :: X)) = some X := by
      show dropPre schemeSepL (schemeSepL ++ X) = some X
      exact dropPre_self _ _
    simp only [tryUrlAt, h1]
    rw [if_neg (by decide : ¬(':' = 's'))]
    simp only [h2]
    simp [schemeL]
  | true =>
    have h1 : dropPre httpL (schemeL true ++ X) = some ('s' :: (':' :: '/' :: '/' :: X)) := by
      rw [show schemeL true ++ X = httpL ++ ('s' :: (':' :: '/' :: '/' :: X)) from by
        simp [schemeL, schemeSepL]]
      exact dropPre_self _ _
    have h2 : dropPre schemeSepL (':' :: '/' :: '/' :: X) = some X := by
      show dropPre schemeSepL (schemeSepL ++ X) = some X
      exact dropPre_self _ _
    simp only [tryUrlAt, h1]
    simp only [if_true, eq_self_iff_true, ite_true]
    simp only [h2]
    simp [schemeL]

/-- Helper: after the scheme, a subdomain (shortest reading) plus the
allow-listed domain matches, with no path when no slash follows. -/
theorem afterScheme_sub (domain pre sub post : List Char)
    (hsub1 : sub ≠ []) (hnl : ∀ c ∈ sub, notLineTerm c = true)
    (hno : ∀ s1 s2, sub = s1 ++ '.' :: s2 →
      matchDomainSplit domain (s2 ++ '.' :: (domain ++ post)) = none)
    (hpost : ∀ c, post.head? = some c → c ≠ '/') :
    afterScheme domain pre (sub ++ '.' :: (domain ++ post)) =
      some (pre ++ sub ++ '.' :: domain, post) := by
  simp only [afterScheme, subSearch_exact domain sub post hsub1 hnl hno,
    takePath_nopath post hpost]
  simp

/-- Helper: after the scheme, the bare allow-listed domain matches when the
subdomain group cannot fire, with no path when no slash follows. -/
theorem afterScheme_bare (domain pre post : List Char)
    (hno : ∀ s1 s2, domain ++ post = s1 ++ '.' :: s2 → s1 ≠ [] →
      matchDomainSplit domain s2 = none)
    (hpost : ∀ c, post.head? = some c → c ≠ '/') :
    afterScheme domain pre (domain ++ post) = some (pre ++ domain, post) := by
  simp only [afterScheme, subSearch_bare_none domain post hno,
    matchDomainSplit_self domain post, takePath_nopath post hpost]
  simp

/-- Helper: positions before an h-free prefix are skipped. -/
theorem matchUrlF_skip (domain : List Char) (g : Nat) :
    ∀ (pre s : List Char), (∀ c ∈ pre, c ≠ 'h') →
    matchUrlF domain (pre.length + g) (pre ++ s) = matchUrlF domain g s := by
  intro pre
  induction pre with
  | nil => intro s _; simp
  | cons c pre ih =>
    intro s hpre
    have hlen : (c :: pre).length + g = (pre.length + g) + 1 := by
      simp [List.length_cons]
      omega
    rw [hlen, List.cons_append]
    simp only [matchUrlF, tryUrlAt_none_of_ne domain c _ (hpre c (by simp))]
    exact ih s (fun x hx => hpre x (by simp [hx]))

/-- Helper: a successful attempt at the head produces the match. -/
theorem matchUrlF_head (domain : List Char) (f : Nat) (s m after : List Char)
    (hs : s ≠ []) (h : tryUrlAt domain s = some (m, after)) :
    matchUrlF domain (f + 1) s = m :: matchUrlF domain f after := by
  cases s with
  | nil => cases hs rfl
  | cons c rest => simp only [matchUrlF, h]

/-- C2 counterexample: a host that merely ends in the characters of the
allow-listed domain, with no dot boundary, is not matched — the text
"http://evilpastebin.com" yields no link for the allow-list
["pastebin.com"], though the host ends in "pastebin.com". -/
theorem c2_counterexample :
    List.isSuffixOf pastebinL evilHostL = true ∧
    evilTextL = "http://".toList ++ evilHostL ∧
    getLinks [pastebinL] evilTextL = [] ∧
    evilTextL ∉ getLinks [pastebinL] evilTextL := by
  refine ⟨by decide, by decide, by decide, by decide⟩

/-- C2 (amended): `classify(text).links` contains the URLs the spliced
pattern matches, in which a '.' inside the configured domain is a
single-character wildcard (the domain is spliced into the regex unescaped)
and the optional subdomain group lazily takes the shortest reading.  For
surrounding text that cannot start or extend a match (no 'h' before the URL,
no '/' directly after it): a URL with a possibly multi-label subdomain, a
dot and the allow-listed domain is in the result provided no dot boundary
inside the subdomain already completes a domain-pattern match, and a bare
URL on the domain itself is in the result provided no later dot boundary
completes a domain-pattern match (otherwise the subdomain group extends the
match past the bare URL, as in http://pastebin.com.pastebin.com); a URL
whose host merely ends in the domain's characters without a dot boundary is
excluded. -/
theorem c2_allowlisted_links :
    (∀ (domains : List (List Char)) (domain pre sub post : List Char) (secure : Bool),
      domain ∈ domains → (∀ c ∈ pre, c ≠ 'h') → sub ≠ [] →
      (∀ c ∈ sub, notLineTerm c = true) →
      (∀ k, k < sub.length → (sub.drop k).head? = some '.' →
        matchDomainSplit domain (sub.drop (k + 1) ++ '.' :: (domain ++ post)) = none) →
      (∀ c, post.head? = some c → c ≠ '/') →
      (schemeL secure ++ (sub ++ '.' :: domain)) ∈
        getLinks domains (pre ++ (schemeL secure ++ (sub ++ '.' :: (domain ++ post))))) ∧
    (∀ (domains : List (List Char)) (domain pre post : List Char) (secure : Bool),
      domain ∈ domains → (∀ c ∈ pre, c ≠ 'h') →
      (∀ j, j < (domain ++ post).length - 1 →
        ((domain ++ post).drop (j + 1)).head? = some '.' →
        matchDomainSplit domain ((domain ++ post).drop (j + 2)) = none) →
      (∀ c, post.head? = some c → c ≠ '/') →
      (schemeL secure ++ domain) ∈
        getLinks domains (pre ++ (schemeL secure ++ (domain ++ post)))) ∧
    getLinks [pastebinL] evilTextL = [] := by
  have hmem : ∀ (domains : List (List Char)) (domain s url : List Char), domain ∈ domains →
      url ∈ matchUrlWithDomain s domain → url ∈ getLinks domains s := by
    intro domains domain s url hd hu
    unfold getLinks
    rw [List.mem_flatten]
    exact ⟨matchUrlWithDomain s domain, List.mem_map_of_mem _ hd, hu⟩
  refine ⟨?_, ?_, by decide⟩
  · intro domains domain pre sub post secure hd hpre hsub1 hnl hnopos hpost
    have hno : ∀ s1 s2, sub = s1 ++ '.' :: s2 →
        matchDomainSplit domain (s2 ++ '.' :: (domain ++ post)) = none := by
      intro s1 s2 hdec
      obtain ⟨hk1, hk2, hk3⟩ := decomp_of sub s1 s2 hdec
      have hx := hnopos s1.length hk1 hk2
      rwa [hk3] at hx
    apply hmem domains domain _ _ hd
    unfold matchUrlWithDomain
    have hlen : (pre ++ (schemeL secure ++ (sub ++ '.' :: (domain ++ post)))).length + 1 =
        pre.length + ((schemeL secure ++ (sub ++ '.' :: (domain ++ post))).length + 1) := by
      simp only [List.length_append]
      omega
    rw [hlen, matchUrlF_skip domain _ pre _ hpre]
    have htry : tryUrlAt domain (schemeL secure ++ (sub ++ '.' :: (domain ++ post))) =
        some (schemeL secure ++ sub ++ '.' :: domain, post) := by
      rw [tryUrlAt_scheme, afterScheme_sub domain (schemeL secure) sub post hsub1 hnl hno hpost]
    have hne : schemeL secure ++ (sub ++ '.' :: (domain ++ post)) ≠ [] := by
      cases secure <;> simp [schemeL, httpL, schemeSepL]
    rw [matchUrlF_head domain _ _ _ _ hne htry]
    exact List.mem_cons.mpr (Or.inl (by simp))
  · intro domains domain pre post secure hd hpre hnopos hpost
    have hno : ∀ s1 s2, domain ++ post = s1 ++ '.' :: s2 → s1 ≠ [] →
        matchDomainSplit domain s2 = none := by
      intro s1 s2 hdec hne1
      obtain ⟨hk1, hk2, hk3⟩ := decomp_of (domain ++ post) s1 s2 hdec
      have hk0 : 0 < s1.length := by
        cases s1 with
        | nil => exact absurd rfl hne1
        | cons a t => simp
      have hj := hnopos (s1.length - 1) (by omega)
      have he1 : s1.length - 1 + 1 = s1.length := by omega
      have he2 : s1.length - 1 + 2 = s1.length + 1 := by omega
      rw [he1, he2] at hj
      have hx := hj hk2
      rwa [hk3] at hx
    apply hmem domains domain _ _ hd
    unfold matchUrlWithDomain
    have hlen : (pre ++ (schemeL secure ++ (domain ++ post))).length + 1 =
        pre.length + ((schemeL secure ++ (domain ++ post)).length + 1) := by
      simp only [List.length_append]
      omega
    rw [hlen, matchUrlF_skip domain _ pre _ hpre]
    have htry : tryUrlAt domain (schemeL secure ++ (domain ++ post)) =
        some (schemeL secure ++ domain, post) := by
      rw [tryUrlAt_scheme, afterScheme_bare domain (schemeL secure) post hno hpost]
    have hne : schemeL secure ++ (domain ++ post) ≠ [] := by
      cases secure <;> simp [schemeL, httpL, schemeSepL]
    rw [matchUrlF_head domain _ _ _ _ hne htry]
    exact List.mem_cons_self _ _

/-- Witness for C2: a multi-label-subdomain URL and a bare-domain URL
followed by further text, both among the extracted links. -/
theorem c2_allowlisted_links_witness :
    pastebinL ∈ [pastebinL] ∧ abL ≠ [] ∧
    (schemeL false ++ (abL ++ '.' :: pastebinL)) ∈
      getLinks [pastebinL]
        (preNoH ++ (schemeL false ++ (abL ++ '.' :: (pastebinL ++ postW)))) ∧
    (schemeL false ++ pastebinL) ∈
      getLinks [pastebinL] (preNoH ++ (schemeL false ++ (pastebinL ++ postW))) :=
  ⟨by decide, by decide,
    c2_allowlisted_links.1 [pastebinL] pastebinL preNoH abL postW false
      (by decide) (by decide) (by decide) (by decide) (by decide) (by decide),
    c2_allowlisted_links.2.1 [pastebinL] pastebinL preNoH postW false
      (by decide) (by decide) (by decide) (by decide)⟩
